import Mathlib

/-!
Verification of the Scribble drawing application (`src/main.rs`).

The program state and the operations referenced by the claims are embedded
shallowly:

* `f32` coordinates, widths and font sizes are modelled as exact rationals
  (`ℚ`); the program only combines them with `+ - * / min max`, which the
  claims treat as exact arithmetic.
* Rust `String`s are modelled as `List Char` (`Str`); byte positions are
  computed through an explicit UTF-8 encoding so byte-index slicing can
  be analysed faithfully.
* `i32`/`u32`/`usize` arithmetic is modelled on `ℤ`/`ℕ`; the quantities
  involved (pixel coordinates, page counts) stay far below the wrap-around
  points, which the embedding therefore omits.
* the `regex` crate and the JSON (de)serialisation are external libraries:
  they are abstracted by a `RegexEngine` parameter and by the `FileData`
  type describing the possible parse outcomes of a file's contents.
-/

namespace Scribble

/-- Characters of a Rust `String`. -/
abbrev Str := List Char

/-- The UTF-8 encoding of a single character (standard encoding formulas). -/
def utf8Bytes (c : Char) : List ℕ :=
  let n := c.toNat
  if n < 128 then [n]
  else if n < 2048 then [192 + n / 64, 128 + n % 64]
  else if n < 65536 then [224 + n / 4096, 128 + n / 64 % 64, 128 + n % 64]
  else [240 + n / 262144, 128 + n / 4096 % 64, 128 + n / 64 % 64, 128 + n % 64]

/-- The UTF-8 bytes of a string; `strBytes s |>.length` is Rust's `s.len()`. -/
def strBytes (s : Str) : List ℕ := (s.map utf8Bytes).flatten

/-- Rust `str::len`: the length in bytes. -/
def byteLen (s : Str) : ℕ := (strBytes s).length

/-- The byte offsets of `s` that are character boundaries (including `0` and
`byteLen s`).  Rust string slicing panics when an index is not in this list. -/
def boundaryList : Str → List ℕ
  | [] => [0]
  | c :: s => 0 :: (boundaryList s).map (· + (utf8Bytes c).length)

/-- Whether byte offset `i` is a character boundary of `s`. -/
def isCharBoundary (s : Str) (i : ℕ) : Bool := (boundaryList s).contains i

/-- Modelled from Rust std `char::to_lowercase`, restricted to the mappings
exercised here: ASCII letters and the SpecialCasing entry
U+0130 (İ) → U+0069 U+0307.  Other Unicode mappings (in particular the final
sigma rule) are omitted; they behave like the identity in this model. -/
def rustCharLower (c : Char) : List Char :=
  if c = 'İ' then ['i', '̇']
  else if 'A' ≤ c ∧ c ≤ 'Z' then [Char.ofNat (c.toNat + 32)]
  else [c]

/-- Rust `str::to_lowercase` (character by character, see `rustCharLower`). -/
def strLower (s : Str) : Str := (s.map rustCharLower).flatten

/-- Rust `line.trim().is_empty()`: every character is whitespace.
(`Char.isWhitespace` models the ASCII part of Unicode `White_Space`.) -/
def isBlank (s : Str) : Bool := s.all (fun c => c.isWhitespace)

/-- Split at every `'\n'`, keeping the (possibly empty) piece after the last
one; auxiliary for `rustLines`. -/
def splitNl : Str → List Str
  | [] => [[]]
  | '\n' :: cs => [] :: splitNl cs
  | c :: cs =>
    match splitNl cs with
    | [] => [[c]]
    | p :: ps => (c :: p) :: ps

/-- Drop one trailing `'\r'` (used on pieces that were `'\n'`-terminated). -/
def stripCR (l : Str) : Str :=
  match l.getLast? with
  | some c => if c = '\r' then l.dropLast else l
  | none => l

/-- Auxiliary for `rustLines`: every piece but the last was `'\n'`-terminated
and gets its trailing `'\r'` stripped; an empty last piece (trailing newline
in the string) produces no line. -/
def rustLinesAux : List Str → List Str
  | [] => []
  | [p] => if p = [] then [] else [p]
  | p :: ps => stripCR p :: rustLinesAux ps

/-- Rust `str::lines`. -/
def rustLines (s : Str) : List Str := rustLinesAux (splitNl s)

/-- Rust `<[u8]>::starts_with` on byte lists (via `List.isPrefixOf`). -/
def bytePrefixOf (needle hay : List ℕ) : Bool := needle.isPrefixOf hay

/-- Rust `str::find` on the underlying bytes: index of the first occurrence
of `needle` in `hay`. -/
def findSub (needle : List ℕ) : List ℕ → Option ℕ
  | [] => if bytePrefixOf needle [] then some 0 else none
  | a :: t =>
    if bytePrefixOf needle (a :: t) then some 0
    else (findSub needle t).map (· + 1)

/-- Rust `str::contains`: substring test on the UTF-8 bytes. -/
def containsStr (hay needle : Str) : Bool :=
  (findSub (strBytes needle) (strBytes hay)).isSome

/-! Geometry (`egui::Pos2`, `egui::Rect`) -/

/-- `egui::Pos2`. -/
structure Pos2 where
  x : ℚ
  y : ℚ
deriving DecidableEq, Repr

/-- `egui::Rect` (min/max corners). -/
structure Rect where
  minX : ℚ
  minY : ℚ
  maxX : ℚ
  maxY : ℚ
deriving DecidableEq, Repr

/-- `egui::Rect::from_center_size`. -/
def Rect.fromCenterSize (cx cy sx sy : ℚ) : Rect :=
  ⟨cx - sx / 2, cy - sy / 2, cx + sx / 2, cy + sy / 2⟩

/-- `egui::Rect::from_min_size`. -/
def Rect.fromMinSize (x y sx sy : ℚ) : Rect := ⟨x, y, x + sx, y + sy⟩

/-- `egui::Rect::intersects` (closed-rectangle overlap, inclusive bounds). -/
def Rect.intersects (a b : Rect) : Bool :=
  decide (a.minX ≤ b.maxX ∧ b.minX ≤ a.maxX ∧ a.minY ≤ b.maxY ∧ b.minY ≤ a.maxY)

/-! Data model (`main.rs` structs) -/

/-- `egui::Color32` (sRGBA). `from_rgb` sets alpha to 255. -/
structure Color32 where
  r : ℕ
  g : ℕ
  b : ℕ
  a : ℕ
deriving DecidableEq, Repr

/-- `egui::Color32::from_rgb`. -/
def Color32.fromRgb (r g b : ℕ) : Color32 := ⟨r, g, b, 255⟩

structure Stroke where
  points : List Pos2
  color : Color32
  width : ℚ
deriving DecidableEq, Repr

structure TextElement where
  position : Pos2
  text : Str
  font_size : ℚ
deriving DecidableEq, Repr

structure Page where
  strokes : List Stroke
  text_elements : List TextElement
  name : Str
deriving DecidableEq, Repr

structure SerializableStroke where
  points : List (ℚ × ℚ)
  color : ℕ × ℕ × ℕ
  width : ℚ
deriving DecidableEq, Repr

structure SerializableTextElement where
  position : ℚ × ℚ
  text : Str
  font_size : ℚ
deriving DecidableEq, Repr

structure SerializablePage where
  strokes : List SerializableStroke
  text_elements : List SerializableTextElement
  name : Str
deriving DecidableEq, Repr

structure ScribbleNotebook where
  pages : List SerializablePage
  current_page_index : ℕ
  canvas_size : ℚ × ℚ
deriving DecidableEq, Repr

structure ScribbleProject where
  strokes : List SerializableStroke
  text_elements : List SerializableTextElement
  canvas_size : ℚ × ℚ
deriving DecidableEq, Repr

/-- The fields of `ScribbleApp` that the verified operations read or write.
GUI-only fields (tool choice, colors, dialog flags, clipboard handle, …) are
not touched by the modelled operations and are omitted. -/
structure AppState where
  pages : List Page
  current_page_index : ℕ
  is_notebook_mode : Bool
  current_stroke : List Pos2
  is_drawing : Bool
  search_query : Str
  search_results : List ℕ
  regex_mode : Bool
  search_error : Option Str
  is_selecting_text : Bool
  selection_start : Option Pos2
  selection_end : Option Pos2
  selected_text_elements : List ℕ
deriving DecidableEq, Repr

/-- `ScribbleApp::default`. -/
def defaultState : AppState where
  pages := [{ strokes := [], text_elements := [], name := "Page 1".data }]
  current_page_index := 0
  is_notebook_mode := false
  current_stroke := []
  is_drawing := false
  search_query := []
  search_results := []
  regex_mode := false
  search_error := none
  is_selecting_text := false
  selection_start := none
  selection_end := none
  selected_text_elements := []

def emptyPage : Page := ⟨[], [], []⟩

/-- `ScribbleApp::current_page`.  In Rust, `self.pages[self.current_page_index]`
panics when the index is out of bounds; the total model returns `emptyPage`
there.  Claim C9's invariant keeps the index in bounds. -/
def currentPage (s : AppState) : Page := (s.pages[s.current_page_index]?).getD emptyPage

/-- `ScribbleApp::current_text_elements`. -/
def currentTextElements (s : AppState) : List TextElement := (currentPage s).text_elements

/-- `ScribbleApp::current_strokes`. -/
def currentStrokes (s : AppState) : List Stroke := (currentPage s).strokes

/-- Replace the element at an index, leaving the list unchanged when the index
is out of bounds (the semantics of `Vec::get_mut` followed by a write). -/
def listModify (f : α → α) : ℕ → List α → List α
  | _, [] => []
  | 0, a :: l => f a :: l
  | n + 1, a :: l => a :: listModify f n l

/-- In-place update of the current page (`ScribbleApp::current_page_mut`).
Rust panics when `current_page_index` is out of bounds; the model is a no-op
there (unreachable under claim C9's invariant). -/
def updateCurrentPage (s : AppState) (f : Page → Page) : AppState :=
  { s with pages := listModify f s.current_page_index s.pages }

/-! Notebook management -/

/-- The string `format!("Page {}", i)`. -/
def pageName (i : ℕ) : Str := ("Page " ++ Nat.repr i).data

/-- `ScribbleApp::create_notebook`. -/
def create_notebook (page_count : ℕ) (s : AppState) : AppState :=
  { s with
    pages := (List.range page_count).map
      (fun i => { strokes := [], text_elements := [], name := pageName (i + 1) })
    current_page_index := 0
    is_notebook_mode := true }

/-- `ScribbleApp::add_new_page`. -/
def add_new_page (s : AppState) : AppState :=
  { s with pages := s.pages ++
      [{ strokes := [], text_elements := [], name := pageName (s.pages.length + 1) }] }

/-- `ScribbleApp::next_page`.  (`pages.len() - 1` is `usize` subtraction in
Rust, modelled by truncated `ℕ` subtraction; both agree whenever
`pages` is non-empty, which claim C9's invariant guarantees.) -/
def next_page (s : AppState) : AppState :=
  if s.current_page_index < s.pages.length - 1 then
    { s with current_page_index := s.current_page_index + 1 }
  else s

/-- `ScribbleApp::previous_page`. -/
def previous_page (s : AppState) : AppState :=
  if 0 < s.current_page_index then
    { s with current_page_index := s.current_page_index - 1 }
  else s

/-- The invariant of claim C9: at least one page, and the current index in
bounds. -/
def pagesInv (s : AppState) : Prop :=
  s.pages ≠ [] ∧ s.current_page_index < s.pages.length

/-! Search -/

/-- Abstraction of the external `regex` crate: a compiler from patterns to
matchers, a whole-text match test (`Regex::is_match`) and the list of
`(start, end)` byte ranges of `Regex::find_iter`.  The verified code treats
the engine as a black box, so the theorems hold for every engine. -/
structure RegexEngine where
  Obj : Type
  compile : Str → Except Str Obj
  isMatch : Obj → Str → Bool
  findIter : Obj → Str → List (ℕ × ℕ)

/-- `ScribbleApp::perform_search`. -/
def perform_search (eng : RegexEngine) (s : AppState) : AppState :=
  let s0 := { s with search_results := [], search_error := none }
  if s0.search_query = [] then s0
  else
    let tes := currentTextElements s0
    if s0.regex_mode then
      match eng.compile s0.search_query with
      | .ok re =>
        { s0 with search_results :=
            (tes.enum.filter (fun p => eng.isMatch re p.2.text)).map Prod.fst }
      | .error e =>
        { s0 with search_error := some ("Regex error: ".data ++ e) }
    else
      let query_lower := strLower s0.search_query
      { s0 with search_results :=
          (tes.enum.filter
            (fun p => containsStr (strLower p.2.text) query_lower)).map Prod.fst }

/-- The `while let Some(pos) = text_lower[start..].find(&query_lower)` loop of
`get_match_positions`, on UTF-8 bytes.  `origLen` is `self.search_query.len()`
(the byte length of the original, un-lowercased query).  The loop advances
`start` past each found position; `fuel` bounds the number of iterations
(`low.length + 1` always suffices for a non-empty query). -/
def matchLoop (qLow : List ℕ) (origLen : ℕ) (low : List ℕ) : ℕ → ℕ → List (ℕ × ℕ)
  | 0, _ => []
  | fuel + 1, start =>
    match findSub qLow (low.drop start) with
    | none => []
    | some pos =>
      (start + pos, start + pos + origLen) :: matchLoop qLow origLen low fuel (start + pos + 1)

/-- `ScribbleApp::get_match_positions`. -/
def get_match_positions (eng : RegexEngine) (s : AppState) (text : Str) : List (ℕ × ℕ) :=
  if s.search_query = [] then []
  else if s.regex_mode then
    match eng.compile s.search_query with
    | .ok re => eng.findIter re text
    | .error _ => []
  else
    let qLow := strBytes (strLower s.search_query)
    let low := strBytes (strLower text)
    matchLoop qLow (byteLen s.search_query) low (low.length + 1) 0

/-! Arrow placement -/

/-- The estimated rectangle of line `line_idx` of a text element: origin
`(position.x, position.y + line_idx * 1.2 * font_size)`, size
`(line.len() * 0.6 * font_size, font_size)`. -/
def lineRect (te : TextElement) (line_idx : ℕ) (line : Str) : Rect :=
  Rect.fromMinSize te.position.x
    (te.position.y + (line_idx : ℚ) * (te.font_size * (1.2 : ℚ)))
    ((byteLen line : ℚ) * te.font_size * (0.6 : ℚ))
    te.font_size

/-- `ScribbleApp::check_arrow_collision_at_position`. -/
def check_arrow_collision_at_position (s : AppState) (arrow_x arrow_y arrow_length : ℚ) :
    Bool :=
  let arrow_area := Rect.fromCenterSize arrow_x arrow_y
    (arrow_length + 2 * 2) (arrow_length + 2 * 2)
  (currentTextElements s).enum.any fun p =>
    !(s.search_results.contains p.1) &&
      ((rustLines p.2.text).enum.any fun q =>
        !isBlank q.2 && arrow_area.intersects (lineRect p.2 q.1 q.2))

inductive ArrowDir where
  | bottom
  | top
  | left
  | right
deriving DecidableEq, Repr

/-- The four candidate arrow positions of `draw_pointing_arrows`, in the order
tried (`arrow_length = 15`, `arrow_gap = 5`, `text_top = text_bottom - 20`,
`text_center_y = text_top + 10`). -/
def arrowCandidates (center_x text_bottom match_width : ℚ) : List (ArrowDir × ℚ × ℚ) :=
  [(.bottom, center_x, text_bottom + 5),
   (.top, center_x, (text_bottom - 20) - 5 - 15),
   (.left, center_x - match_width / 2 - 5 - 15, (text_bottom - 20) + 10),
   (.right, center_x + match_width / 2 + 5, (text_bottom - 20) + 10)]

/-- `ScribbleApp::draw_pointing_arrows`, returning the list of arrows drawn on
the painter as `(direction, x, y, length)` tuples: the first collision-free
candidate if there is one, otherwise the fallback bottom arrow (plus two
shorter side arrows when the match is wider than 30). -/
def draw_pointing_arrows (s : AppState) (center_x text_bottom match_width : ℚ) :
    List (ArrowDir × ℚ × ℚ × ℚ) :=
  match (arrowCandidates center_x text_bottom match_width).find?
      (fun c => !check_arrow_collision_at_position s c.2.1 c.2.2 15) with
  | some c => [(c.1, c.2.1, c.2.2, 15)]
  | none =>
    (ArrowDir.bottom, center_x, text_bottom + 5, 15) ::
      (if 30 < match_width then
        [(ArrowDir.bottom, center_x - match_width / 3, text_bottom + 5, 15 * (0.7 : ℚ)),
         (ArrowDir.bottom, center_x + match_width / 3, text_bottom + 5, 15 * (0.7 : ℚ))]
      else [])

/-! The byte-index slicing of `draw_arrows_for_matches` (claim C5) -/

/-- The line-locating loop of `draw_arrows_for_matches`: walks the lines
accumulating `char_count` (each line counts `line.len() + 1` bytes for its
newline) and stops at the line containing byte `start_char`; returns the line
index and the accumulated count, or `none` when the loop never breaks. -/
def locateLoop (start_char : ℕ) : List Str → ℕ → ℕ → Option (ℕ × ℕ)
  | [], _, _ => none
  | line :: rest, idx, cc =>
    if start_char < cc + (byteLen line + 1) then some (idx, cc)
    else locateLoop start_char rest (idx + 1) (cc + (byteLen line + 1))

/-- For one match position `(start_char, end_char)`, the `(line, start, end)`
triples at which `draw_arrows_for_matches` slices
`&current_line[..match_start_in_line]` and
`&current_line[match_start_in_line..match_end_in_line]` (after the
`min`-clamp of the end); empty when `match_line` is out of range. -/
def sliceArgsFor (lines : List Str) (pos : ℕ × ℕ) : List (Str × ℕ × ℕ) :=
  let found := locateLoop pos.1 lines 0 0
  let ml := (found.map Prod.fst).getD 0
  let sl := (found.map (fun r => pos.1 - r.2)).getD pos.1
  let el := (found.map (fun r => pos.2 - r.2)).getD pos.2
  match lines[ml]? with
  | some line => [(line, sl, min el (byteLen line))]
  | none => []

/-- Rust slicing `&line[a..b]` succeeds exactly when `a ≤ b ≤ line.len()` and
both `a` and `b` are character boundaries; otherwise it panics. -/
def sliceOk (line : Str) (a b : ℕ) : Bool :=
  decide (a ≤ b) && decide (b ≤ byteLen line) &&
    isCharBoundary line a && isCharBoundary line b

/-- Whether every string slice taken by `draw_arrows_for_matches` on `text`
(for the current query) is in bounds and on character boundaries. -/
def drawSlicesOk (eng : RegexEngine) (s : AppState) (text : Str) : Bool :=
  (get_match_positions eng s text).all fun pos =>
    (sliceArgsFor (rustLines text) pos).all fun arg =>
      sliceOk arg.1 0 arg.2.1 && sliceOk arg.1 arg.2.1 arg.2.2

/-- A regex engine whose behaviour is irrelevant (used with
`regex_mode = false`). -/
def trivEngine : RegexEngine where
  Obj := Unit
  compile := fun _ => .error []
  isMatch := fun _ _ => false
  findIter := fun _ _ => []

/-! Text dragging -/

/-- Move a text element by `off` (the body of the `get_mut` write in
`drag_selected_text`): only `position` changes. -/
def dragMove (off : Pos2) (te : TextElement) : TextElement :=
  { te with position := ⟨te.position.x + off.x, te.position.y + off.y⟩ }

/-- `ScribbleApp::drag_selected_text`. -/
def drag_selected_text (s : AppState) (current_pos : Pos2) : AppState :=
  match s.selection_start with
  | none => s
  | some start_pos =>
    let off : Pos2 := ⟨current_pos.x - start_pos.x, current_pos.y - start_pos.y⟩
    let s2 := updateCurrentPage s fun pg =>
      { pg with text_elements :=
          (s.selected_text_elements.foldl (fun tes idx => listModify (dragMove off) idx tes)
            pg.text_elements) }
    { s2 with selection_start := some current_pos }

/-! Content bounds (`calculate_content_bounds`) -/

/-- One `min`/`max` accumulation step of `calculate_content_bounds`:
`none` models the initial `(∞, ∞, -∞, -∞)` accumulator; `lo` updates the
minima and `hi` the maxima (they coincide for a stroke point, and are the two
corners of the estimated rectangle for a text line). -/
def updBounds : Option (ℚ × ℚ × ℚ × ℚ) → ℚ × ℚ → ℚ × ℚ → Option (ℚ × ℚ × ℚ × ℚ)
  | none, lo, hi => some (lo.1, lo.2, hi.1, hi.2)
  | some (a, b, c, d), lo, hi => some (min a lo.1, min b lo.2, max c hi.1, max d hi.2)

/-- The stroke-bounds loop of `calculate_content_bounds`. -/
def strokeBounds (b0 : Option (ℚ × ℚ × ℚ × ℚ)) (strokes : List Stroke) :
    Option (ℚ × ℚ × ℚ × ℚ) :=
  strokes.foldl
    (fun b st => st.points.foldl (fun b p => updBounds b (p.x, p.y) (p.x, p.y)) b) b0

/-- The `(min corner, max corner)` pairs of the estimated rectangles of the
non-blank lines of a text element: line `line_idx` contributes
`(position.x, line_y)` to the minima and
`(position.x + line.len() * font_size * 0.6, line_y + font_size)` to the
maxima, with `line_y = position.y + line_idx * font_size * 1.2`. -/
def textLineCorners (te : TextElement) : List ((ℚ × ℚ) × (ℚ × ℚ)) :=
  ((rustLines te.text).enum.filter (fun q => !isBlank q.2)).map fun q =>
    let line_y := te.position.y + (q.1 : ℚ) * (te.font_size * (1.2 : ℚ))
    ((te.position.x, line_y),
     (te.position.x + (byteLen q.2 : ℚ) * te.font_size * (0.6 : ℚ),
      line_y + te.font_size))

/-- The text-bounds loop of `calculate_content_bounds`. -/
def textBounds (b0 : Option (ℚ × ℚ × ℚ × ℚ)) (tes : List TextElement) :
    Option (ℚ × ℚ × ℚ × ℚ) :=
  tes.foldl (fun b te => (textLineCorners te).foldl (fun b pr => updBounds b pr.1 pr.2) b) b0

/-- The `(min_x, min_y, max_x, max_y)` accumulator of
`calculate_content_bounds` after both loops (`none` = still infinite). -/
def pageBoundsAcc (p : Page) : Option (ℚ × ℚ × ℚ × ℚ) :=
  textBounds (strokeBounds none p.strokes) p.text_elements

/-- `ScribbleApp::calculate_content_bounds`. -/
def calculate_content_bounds (s : AppState) : ℚ × ℚ × ℚ × ℚ :=
  match pageBoundsAcc (currentPage s) with
  | none => (0, 0, 800, 600)
  | some (a, b, c, d) =>
    (a - 20, b - 20, max ((c + 20) - (a - 20)) 400, max ((d + 20) - (b - 20)) 300)

/-! Save / load -/

/-- The save-side stroke conversion of `save_project`. -/
def strokeToSer (st : Stroke) : SerializableStroke :=
  ⟨st.points.map (fun p => (p.x, p.y)), (st.color.r, st.color.g, st.color.b), st.width⟩

/-- The save-side text conversion of `save_project`. -/
def textToSer (t : TextElement) : SerializableTextElement :=
  ⟨(t.position.x, t.position.y), t.text, t.font_size⟩

/-- The save-side page conversion of `save_project` (notebook branch). -/
def pageToSer (p : Page) : SerializablePage :=
  ⟨p.strokes.map strokeToSer, p.text_elements.map textToSer, p.name⟩

/-- The `ScribbleNotebook` written by `save_project` in notebook mode. -/
def saveNotebook (s : AppState) : ScribbleNotebook :=
  ⟨s.pages.map pageToSer, s.current_page_index, (800, 600)⟩

/-- The load-side stroke conversion (`load_project` / `load_project_from_path`). -/
def serToStroke (s : SerializableStroke) : Stroke :=
  ⟨s.points.map (fun t => ⟨t.1, t.2⟩), Color32.fromRgb s.color.1 s.color.2.1 s.color.2.2,
   s.width⟩

/-- The load-side text conversion. -/
def serToText (t : SerializableTextElement) : TextElement :=
  ⟨⟨t.position.1, t.position.2⟩, t.text, t.font_size⟩

/-- The load-side page conversion. -/
def serToPage (p : SerializablePage) : Page :=
  ⟨p.strokes.map serToStroke, p.text_elements.map serToText, p.name⟩

/-- The notebook branch of `load_project_from_path`: clears the transient
state and installs the loaded pages; the stored index is clamped to
`min(index, pages.len().saturating_sub(1))`. -/
def loadNotebookInto (nb : ScribbleNotebook) (s : AppState) : AppState :=
  { s with
    pages := nb.pages.map serToPage
    current_page_index := min nb.current_page_index (nb.pages.length - 1)
    is_notebook_mode := true
    current_stroke := []
    is_drawing := false
    selected_text_elements := []
    is_selecting_text := false
    selection_start := none
    selection_end := none
    search_results := []
    search_query := [] }

/-- The single-page-project branch of `load_project_from_path`. -/
def loadProjectInto (pj : ScribbleProject) (s : AppState) : AppState :=
  { s with
    pages := [⟨pj.strokes.map serToStroke, pj.text_elements.map serToText,
               "Imported Page".data⟩]
    current_page_index := 0
    is_notebook_mode := false
    current_stroke := []
    is_drawing := false
    selected_text_elements := []
    is_selecting_text := false
    selection_start := none
    selection_end := none
    search_results := []
    search_query := [] }

/-- The possible outcomes of reading and JSON-parsing a file's contents
(`fs::read_to_string` + the two `serde_json::from_str` attempts):
the read fails, or the contents parse as a `ScribbleNotebook` and/or a
`ScribbleProject` or as neither. -/
inductive FileData where
  | readError (e : Str)
  | content (nb : Option ScribbleNotebook) (pj : Option ScribbleProject)

/-- `ScribbleApp::load_project_from_path`, returning the new state and the
`Result`. -/
def load_project_from_path (fd : FileData) (s : AppState) : AppState × Except Str Unit :=
  match fd with
  | .readError e => (s, .error e)
  | .content (some nb) _ => (loadNotebookInto nb s, .ok ())
  | .content none (some pj) => (loadProjectInto pj s, .ok ())
  | .content none none => (s, .error "Invalid file format".data)

/-! PNG line rasterisation (`draw_line_on_image`) -/

/-- Every stroke color of every page is fully opaque (alpha 255). -/
def allStrokesOpaque (s : AppState) : Bool :=
  s.pages.all fun pg => pg.strokes.all fun st => st.color.a == 255

/-- The stroke points of a page, as coordinate pairs. -/
def strokePoints (p : Page) : List (ℚ × ℚ) :=
  (p.strokes.map (fun st => st.points.map (fun q => (q.x, q.y)))).flatten

/-- All `(min corner, max corner)` contributions to `calculate_content_bounds`:
every stroke point (as both corners) and the estimated rectangles of every
non-blank text line. -/
def contentCorners (p : Page) : List ((ℚ × ℚ) × (ℚ × ℚ)) :=
  (strokePoints p).map (fun q => (q, q)) ++ (p.text_elements.map textLineCorners).flatten

/-- A notebook-mode state whose page index is out of bounds (one page,
index 1): the save/load round trip clamps the index. -/
def c2State : AppState :=
  { defaultState with is_notebook_mode := true, current_page_index := 1 }

/-- A serialized notebook with an empty page list: `load_project_from_path`
accepts it and leaves the application without pages. -/
def emptyNotebook : ScribbleNotebook := ⟨[], 0, (800, 600)⟩

/-- A page holding one text element `"İİ"` (two copies of U+0130). -/
def c5State : AppState :=
  { defaultState with
    search_query := ['i']
    pages := [{ strokes := [], text_elements := [⟨⟨0, 0⟩, ['İ', 'İ'], 20⟩], name := [] }] }

/-- A page holding a single stroke from `(20, 20)` to `(780, 580)`: its
content bounds come out exactly `(0, 0, 800, 600)`. -/
def c8State : AppState :=
  { defaultState with
    pages := [{ strokes := [⟨[⟨20, 20⟩, ⟨780, 580⟩], ⟨0, 0, 0, 255⟩, 2⟩],
                text_elements := [], name := [] }] }

/-- A state whose selection list contains the same index twice. -/
def c10State : AppState :=
  { defaultState with
    pages := [{ strokes := [], text_elements := [⟨⟨0, 0⟩, ['a'], 20⟩], name := [] }]
    selection_start := some ⟨0, 0⟩
    selected_text_elements := [0, 0] }

/-- A well-formed notebook-mode state (used as a round-trip witness). -/
def c2WitnessState : AppState := { defaultState with is_notebook_mode := true }

/-- A state with one text element `"bar"` and the search query `"a"`. -/
def c6WitnessState : AppState :=
  { defaultState with
    search_query := ['a']
    pages := [{ strokes := [], text_elements := [⟨⟨0, 0⟩, ['b', 'a', 'r'], 20⟩],
                name := [] }] }

/-- A state with one text element and a duplicate-free selection. -/
def c10WitnessState : AppState :=
  { defaultState with
    pages := [{ strokes := [], text_elements := [⟨⟨5, 5⟩, ['a'], 20⟩], name := [] }]
    selection_start := some ⟨1, 2⟩
    selected_text_elements := [0] }

/-! Theorems -/

/-- C7: Whenever `load_project_from_path` returns an error — the file
cannot be read, or its contents parse as JSON for neither `ScribbleNotebook`
nor `ScribbleProject` — the entire application state (pages,
current_page_index, is_notebook_mode, current stroke, search state, selection
state) is left exactly as it was before the call. -/
theorem load_error_leaves_state (fd : FileData) (s : AppState) (e : Str)
    (h : (load_project_from_path fd s).2 = .error e) :
    (load_project_from_path fd s).1 = s := by
  cases fd with
  | readError e => rfl
  | content nb pj =>
    cases nb with
    | some nb => simp [load_project_from_path] at h
    | none =>
      cases pj with
      | some pj => simp [load_project_from_path] at h
      | none => rfl

/-- Witness for C7: the error branch is reachable (contents that parse as
neither format), and it indeed leaves the default state unchanged. -/
theorem load_error_leaves_state_witness :
    (load_project_from_path (.content none none) defaultState).1 = defaultState :=
  load_error_leaves_state (.content none none) defaultState "Invalid file format".data rfl

/-- C9, counterexample: Loading a notebook file with an empty page list
succeeds but breaks the invariant: the literal claim "every successful load
maintains it" is false. -/
theorem load_empty_notebook_breaks_inv :
    (load_project_from_path (.content (some emptyNotebook) none) defaultState).2 =
        .ok () ∧
      ¬ pagesInv
        (load_project_from_path (.content (some emptyNotebook) none) defaultState).1 := by
  refine ⟨rfl, fun h => ?_⟩
  exact h.1 rfl

/-- C9 (amended): The default state, `create_notebook` with a positive
page count, `add_new_page`, `next_page`, `previous_page`, and every successful
load that installs at least one page maintain the invariant that `pages` is
non-empty and `current_page_index < pages.len()` (so the indexing in
`current_page`/`current_page_mut` stays in bounds).  (Amendment: a load of a
notebook file with an empty page list succeeds but clears all pages; see the
counterexample.) -/
theorem pages_inv_preserved :
    pagesInv defaultState ∧
      (∀ n s, 0 < n → pagesInv (create_notebook n s)) ∧
      (∀ s, pagesInv s → pagesInv (add_new_page s)) ∧
      (∀ s, pagesInv s → pagesInv (next_page s)) ∧
      (∀ s, pagesInv s → pagesInv (previous_page s)) ∧
      (∀ fd s, (load_project_from_path fd s).2 = .ok () →
        (load_project_from_path fd s).1.pages ≠ [] →
        pagesInv (load_project_from_path fd s).1) := by
  refine ⟨⟨by simp [defaultState], by simp [defaultState]⟩, ?_, ?_, ?_, ?_, ?_⟩
  · intro n s hn
    refine ⟨?_, ?_⟩
    · simp only [create_notebook, ne_eq, List.map_eq_nil_iff, List.range_eq_nil]
      omega
    · simpa [create_notebook] using hn
  · intro s hs
    refine ⟨by simp [add_new_page], ?_⟩
    have := hs.2
    simp only [add_new_page, List.length_append, List.length_cons, List.length_nil]
    omega
  · intro s hs
    unfold next_page
    split
    · rename_i h
      refine ⟨hs.1, ?_⟩
      show s.current_page_index + 1 < s.pages.length
      omega
    · exact hs
  · intro s hs
    unfold previous_page
    split
    · refine ⟨hs.1, ?_⟩
      show s.current_page_index - 1 < s.pages.length
      have := hs.2
      omega
    · exact hs
  · intro fd s hok hne
    cases fd with
    | readError e => simp [load_project_from_path] at hok
    | content nb pj =>
      cases nb with
      | some nb =>
        refine ⟨hne, ?_⟩
        have hlen : 0 < nb.pages.length := by
          rcases hn : nb.pages with _ | ⟨p, ps⟩
          · exfalso
            apply hne
            simp [load_project_from_path, loadNotebookInto, hn]
          · simp [hn]
        simp only [load_project_from_path, loadNotebookInto, List.length_map]
        omega
      | none =>
        cases pj with
        | some pj =>
          exact ⟨hne, by simp [load_project_from_path, loadProjectInto]⟩
        | none => simp [load_project_from_path] at hok

/-- Witness for C9: the preservation clauses applied at concrete inputs. -/
theorem pages_inv_preserved_witness :
    pagesInv (next_page (add_new_page (create_notebook 3 defaultState))) :=
  pages_inv_preserved.2.2.2.1 _
    (pages_inv_preserved.2.2.1 _ (pages_inv_preserved.2.1 3 defaultState (by decide)))

/-- Round trip of a point list through `(x, y)` pairs. -/
theorem pos2_pair_roundtrip (pts : List Pos2) :
    (pts.map (fun p => (p.x, p.y))).map (fun t => (⟨t.1, t.2⟩ : Pos2)) = pts := by
  induction pts with
  | nil => rfl
  | cons p t ih => simp_all

/-- Round trip of a single stroke through the save- and load-side
conversions, for an opaque stroke color. -/
theorem serToStroke_strokeToSer (st : Stroke) (h : st.color.a = 255) :
    serToStroke (strokeToSer st) = st := by
  obtain ⟨pts, ⟨r, g, b, a⟩, w⟩ := st
  simp only at h
  subst h
  simp only [serToStroke, strokeToSer, Color32.fromRgb, Stroke.mk.injEq]
  refine ⟨pos2_pair_roundtrip pts, ?_, ?_⟩ <;> first | rfl | trivial

/-- Round trip of a text element. -/
theorem serToText_textToSer (t : TextElement) : serToText (textToSer t) = t := rfl

/-- Round trip of a stroke list with opaque colors. -/
theorem strokeList_roundtrip (strokes : List Stroke) :
    (∀ st ∈ strokes, st.color.a = 255) →
      strokes.map (fun st => serToStroke (strokeToSer st)) = strokes := by
  induction strokes with
  | nil => exact fun _ => rfl
  | cons st t ih =>
    intro h
    rw [List.forall_mem_cons] at h
    simp only [List.map_cons, List.cons.injEq]
    exact ⟨serToStroke_strokeToSer st h.1, ih h.2⟩

/-- Round trip of a text-element list. -/
theorem textList_roundtrip (tes : List TextElement) :
    tes.map (fun te => serToText (textToSer te)) = tes := by
  induction tes with
  | nil => rfl
  | cons te t ih => simp only [List.map_cons, List.cons.injEq]; exact ⟨rfl, ih⟩

/-- Round trip of a page whose stroke colors are all opaque. -/
theorem serToPage_pageToSer (p : Page) (h : ∀ st ∈ p.strokes, st.color.a = 255) :
    serToPage (pageToSer p) = p := by
  obtain ⟨strokes, tes, name⟩ := p
  simp only [serToPage, pageToSer, List.map_map, Page.mk.injEq]
  refine ⟨?_, ?_, ?_⟩
  · simpa [Function.comp] using strokeList_roundtrip strokes h
  · simpa [Function.comp] using textList_roundtrip tes
  · first | rfl | trivial

/-- C2 (amended): For every notebook-mode state whose stroke colors are
fully opaque *and whose `current_page_index` is in bounds* (the invariant of
claim C9), mapping every page through the save-side conversion and back
through the load-side conversion restores exactly the original pages and the
same `current_page_index`.  (Amendment: the load side clamps the stored index
to `pages.len() - 1`, so an out-of-bounds index is not restored; see the
counterexample.) -/
theorem notebook_save_load_roundtrip (s s' : AppState)
    (_hmode : s.is_notebook_mode = true)
    (hop : allStrokesOpaque s = true)
    (hidx : s.current_page_index < s.pages.length) :
    (loadNotebookInto (saveNotebook s) s').pages = s.pages ∧
      (loadNotebookInto (saveNotebook s) s').current_page_index =
        s.current_page_index := by
  have h255all : ∀ pg ∈ s.pages, ∀ st ∈ pg.strokes, st.color.a = 255 := by
    intro pg hpg st hst
    have h1 := (List.all_eq_true.mp hop) pg hpg
    have h2 := (List.all_eq_true.mp h1) st hst
    simpa using h2
  constructor
  · show (s.pages.map pageToSer).map serToPage = s.pages
    rw [List.map_map]
    conv_rhs => rw [← List.map_id s.pages]
    exact List.map_congr_left fun pg hpg =>
      serToPage_pageToSer pg (h255all pg hpg)
  · show min s.current_page_index ((s.pages.map pageToSer).length - 1) =
      s.current_page_index
    rw [List.length_map]
    omega

/-- Witness for C2: the round trip at a concrete in-bounds notebook state. -/
theorem notebook_save_load_roundtrip_witness :
    (loadNotebookInto (saveNotebook c2WitnessState) c2WitnessState).pages =
        c2WitnessState.pages ∧
      (loadNotebookInto (saveNotebook c2WitnessState) c2WitnessState).current_page_index =
        c2WitnessState.current_page_index :=
  notebook_save_load_roundtrip c2WitnessState c2WitnessState rfl (by decide) (by decide)

/-- C2, counterexample: A notebook-mode state with opaque stroke colors
whose `current_page_index` (= 1) is not smaller than `pages.len()` (= 1): the
save/load round trip clamps the index to 0, so the claim as stated (for
*every* notebook-mode state with opaque colors) is false. -/
theorem notebook_roundtrip_counterexample :
    c2State.is_notebook_mode = true ∧ allStrokesOpaque c2State = true ∧
      (loadNotebookInto (saveNotebook c2State) c2State).pages = c2State.pages ∧
      (loadNotebookInto (saveNotebook c2State) c2State).current_page_index = 0 ∧
      c2State.current_page_index = 1 := by
  refine ⟨rfl, by decide, by decide, rfl, rfl⟩

/-- `listModify` touches exactly the given index. -/
theorem listModify_getElem? (f : α → α) (i j : ℕ) (l : List α) :
    (listModify f i l)[j]? = if j = i then (l[j]?).map f else l[j]? := by
  induction l generalizing i j with
  | nil => simp [listModify]
  | cons a t ih =>
    cases i with
    | zero =>
      cases j with
      | zero => simp [listModify]
      | succ n => simp [listModify]
    | succ m =>
      cases j with
      | zero => simp [listModify]
      | succ n => simpa [listModify, Nat.succ_eq_add_one] using ih m n

/-- A projection preserved by `f` is preserved by `listModify f`. -/
theorem map_listModify (g : α → β) (f : α → α) (hf : ∀ a, g (f a) = g a) (i : ℕ)
    (l : List α) : (listModify f i l).map g = l.map g := by
  induction l generalizing i with
  | nil => cases i <;> rfl
  | cons a t ih =>
    cases i with
    | zero => simp [listModify, hf]
    | succ m => simp [listModify, ih m]

/-- Folding `listModify` over any index list leaves an empty list empty. -/
theorem foldl_listModify_nil (L : List ℕ) (f : α → α) :
    (L.foldl (fun acc idx => listModify f idx acc) []) = [] := by
  induction L with
  | nil => rfl
  | cons a t ih =>
    simp only [List.foldl_cons]
    have : listModify f a ([] : List α) = [] := by cases a <;> rfl
    rw [this, ih]

/-- `currentPage` after an update of the current page. -/
theorem currentPage_updateCurrentPage (s : AppState) (f : Page → Page) :
    currentPage (updateCurrentPage s f) =
      ((s.pages[s.current_page_index]?).map f).getD emptyPage := by
  unfold currentPage updateCurrentPage
  show ((listModify f s.current_page_index s.pages)[s.current_page_index]?).getD
      emptyPage = _
  rw [listModify_getElem?, if_pos rfl]

/-- Folding `listModify` over a list of indices not containing `j` leaves
entry `j` unchanged. -/
theorem foldl_listModify_not_mem (L : List ℕ) (f : α → α) (l : List α) (j : ℕ)
    (hj : j ∉ L) :
    (L.foldl (fun acc idx => listModify f idx acc) l)[j]? = l[j]? := by
  induction L generalizing l with
  | nil => rfl
  | cons a t ih =>
    rw [List.mem_cons, not_or] at hj
    simp only [List.foldl_cons]
    rw [ih _ hj.2, listModify_getElem?, if_neg hj.1]

/-- Folding `listModify` over a duplicate-free list of indices containing `j`
applies `f` to entry `j` exactly once. -/
theorem foldl_listModify_mem (L : List ℕ) (f : α → α) (l : List α) (j : ℕ)
    (hj : j ∈ L) (hnd : L.Nodup) :
    (L.foldl (fun acc idx => listModify f idx acc) l)[j]? = (l[j]?).map f := by
  induction L generalizing l with
  | nil => simp at hj
  | cons a t ih =>
    rw [List.nodup_cons] at hnd
    simp only [List.foldl_cons]
    rcases List.mem_cons.mp hj with h | h
    · subst h
      rw [foldl_listModify_not_mem t f _ j hnd.1, listModify_getElem?, if_pos rfl]
    · have hne : j ≠ a := by
        rintro rfl
        exact hnd.1 h
      rw [ih _ h hnd.2, listModify_getElem?, if_neg hne]

/-- C10 (amended): When `selection_start` is `Some(start)` and the
selection list has no duplicate indices, `drag_selected_text(current)` adds
the offset `current - start` to the position of exactly the selected text
elements, leaves their `text` and `font_size`, every unselected element, all
strokes and all page names unchanged, and updates `selection_start` to
`Some(current)`; when `selection_start` is `None` it changes nothing.
(Amendment: an index listed `k` times in `selected_text_elements` has the
offset applied `k` times; see the counterexample.) -/
theorem drag_selected_text_spec (s : AppState) (cur : Pos2) :
    (s.selection_start = none → drag_selected_text s cur = s) ∧
      ∀ st, s.selection_start = some st → s.selected_text_elements.Nodup →
        (∀ i ∈ s.selected_text_elements, ∀ te, (currentTextElements s)[i]? = some te →
            (currentTextElements (drag_selected_text s cur))[i]? =
              some { te with position :=
                ⟨te.position.x + (cur.x - st.x), te.position.y + (cur.y - st.y)⟩ }) ∧
          (∀ i, i ∉ s.selected_text_elements →
            (currentTextElements (drag_selected_text s cur))[i]? =
              (currentTextElements s)[i]?) ∧
          (drag_selected_text s cur).pages.map Page.strokes =
            s.pages.map Page.strokes ∧
          (drag_selected_text s cur).pages.map Page.name = s.pages.map Page.name ∧
          (drag_selected_text s cur).selection_start = some cur ∧
          (drag_selected_text s cur).current_page_index = s.current_page_index ∧
          (drag_selected_text s cur).selected_text_elements =
            s.selected_text_elements := by
  constructor
  · intro h
    simp [drag_selected_text, h]
  · intro st hst hnd
    have hdrag : drag_selected_text s cur =
        { updateCurrentPage s (fun pg =>
            { pg with text_elements :=
                (s.selected_text_elements.foldl
                  (fun tes idx => listModify (dragMove ⟨cur.x - st.x, cur.y - st.y⟩) idx tes)
                  pg.text_elements) }) with
          selection_start := some cur } := by
      simp [drag_selected_text, hst]
    have hcur : currentTextElements (drag_selected_text s cur) =
        s.selected_text_elements.foldl
          (fun tes idx => listModify (dragMove ⟨cur.x - st.x, cur.y - st.y⟩) idx tes)
          (currentTextElements s) := by
      have h1 : currentTextElements (drag_selected_text s cur) =
          (currentPage (updateCurrentPage s (fun pg =>
            { pg with text_elements :=
                (s.selected_text_elements.foldl
                  (fun tes idx =>
                    listModify (dragMove ⟨cur.x - st.x, cur.y - st.y⟩) idx tes)
                  pg.text_elements) }))).text_elements := by
        rw [hdrag]
        rfl
      rw [h1, currentPage_updateCurrentPage]
      unfold currentTextElements currentPage
      cases hpg : s.pages[s.current_page_index]? with
      | none => simp [emptyPage, foldl_listModify_nil]
      | some pg => simp
    refine ⟨?_, ?_, ?_, ?_, ?_, ?_, ?_⟩
    · intro i hi te hte
      rw [hcur, foldl_listModify_mem _ _ _ _ hi hnd, hte]
      rfl
    · intro i hi
      rw [hcur, foldl_listModify_not_mem _ _ _ _ hi]
    · rw [hdrag]
      show (listModify _ s.current_page_index s.pages).map Page.strokes = _
      refine map_listModify Page.strokes _ ?_ _ _
      intro pg
      rfl
    · rw [hdrag]
      show (listModify _ s.current_page_index s.pages).map Page.name = _
      refine map_listModify Page.name _ ?_ _ _
      intro pg
      rfl
    · rw [hdrag]
    · rw [hdrag]
      rfl
    · rw [hdrag]
      rfl

/-- Witness for C10: dragging a concrete one-element selection from
`(1, 2)` to `(3, 4)` moves the element at `(5, 5)` to `(7, 7)`. -/
theorem drag_selected_text_spec_witness :
    (currentTextElements (drag_selected_text c10WitnessState ⟨3, 4⟩))[0]? =
      some ⟨⟨5 + (3 - 1), 5 + (4 - 2)⟩, ['a'], 20⟩ :=
  ((drag_selected_text_spec c10WitnessState ⟨3, 4⟩).2 ⟨1, 2⟩ rfl (by decide)).1
    0 (by decide) ⟨⟨5, 5⟩, ['a'], 20⟩ rfl

/-- `findSub` finds something exactly when the needle occurs in the haystack
(as a contiguous byte sub-sequence). -/
theorem findSub_isSome_iff (needle hay : List ℕ) :
    (findSub needle hay).isSome = true ↔ ∃ pre post, hay = pre ++ needle ++ post := by
  induction hay with
  | nil =>
    cases hp : bytePrefixOf needle [] with
    | true =>
      have : needle = [] := List.prefix_nil.mp (List.isPrefixOf_iff_prefix.mp hp)
      subst this
      simp [findSub, hp]
    | false =>
      have hne : ¬ needle = [] := fun h => by
        rw [h] at hp
        simp [bytePrefixOf, List.isPrefixOf] at hp
      simp only [findSub, hp, Bool.false_eq_true, if_false, Option.isSome_none,
        Bool.false_eq_true, false_iff]
      rintro ⟨pre, post, hsplit⟩
      exact hne (List.append_eq_nil.mp (List.append_eq_nil.mp hsplit.symm).1).2
  | cons a t ih =>
    cases hp : bytePrefixOf needle (a :: t) with
    | true =>
      obtain ⟨post, hpost⟩ := List.isPrefixOf_iff_prefix.mp hp
      simp only [findSub, hp, if_true, Option.isSome_some, true_iff]
      exact ⟨[], post, by simp [hpost]⟩
    | false =>
      simp only [findSub, hp, Bool.false_eq_true, if_false]
      have hsome : (Option.map (fun x => x + 1) (findSub needle t)).isSome =
          (findSub needle t).isSome := by
        cases findSub needle t <;> rfl
      rw [hsome, ih]
      constructor
      · rintro ⟨pre, post, h⟩
        exact ⟨a :: pre, post, by simp [h]⟩
      · rintro ⟨pre, post, h⟩
        cases pre with
        | nil =>
          exfalso
          have : bytePrefixOf needle (a :: t) = true := by
            apply List.isPrefixOf_iff_prefix.mpr
            exact ⟨post, by simpa using h.symm⟩
          rw [this] at hp
          simp at hp
        | cons b pre' =>
          simp only [List.cons_append, List.cons.injEq] at h
          exact ⟨pre', post, h.2⟩

/-- Rust `str::contains` holds exactly when the needle's bytes occur
contiguously in the haystack's bytes. -/
theorem containsStr_iff (hay needle : Str) :
    containsStr hay needle = true ↔
      ∃ pre post, strBytes hay = pre ++ strBytes needle ++ post :=
  findSub_isSome_iff (strBytes needle) (strBytes hay)

/-- Membership in an enumerate–filter–project pipeline. -/
theorem mem_enum_filter_map {l : List α} {p : ℕ × α → Bool} {i : ℕ} :
    i ∈ (l.enum.filter p).map Prod.fst ↔
      ∃ a, l[i]? = some a ∧ p (i, a) = true := by
  rw [List.mem_map]
  constructor
  · rintro ⟨⟨j, a⟩, hx, rfl⟩
    rw [List.mem_filter] at hx
    exact ⟨a, List.mem_enum_iff_getElem?.mp hx.1, hx.2⟩
  · rintro ⟨a, ha, hpa⟩
    exact ⟨(i, a), List.mem_filter.mpr ⟨List.mem_enum_iff_getElem?.mpr ha, hpa⟩, rfl⟩

/-- The indices of `enumFrom` are strictly increasing. -/
theorem pairwise_fst_lt_enumFrom (l : List α) :
    ∀ n, List.Pairwise (fun a b : ℕ × α => a.1 < b.1) (List.enumFrom n l) := by
  induction l with
  | nil => intro n; simp
  | cons a t ih =>
    intro n
    refine List.Pairwise.cons ?_ (ih (n + 1))
    intro x hx
    have := (List.mem_enumFrom hx).1
    simpa using this

/-- The result of an enumerate–filter–project pipeline is strictly
increasing. -/
theorem pairwise_enum_filter_map (l : List α) (p : ℕ × α → Bool) :
    List.Pairwise (· < ·) ((l.enum.filter p).map Prod.fst) := by
  rw [List.pairwise_map]
  exact List.Pairwise.sublist (List.filter_sublist _) (pairwise_fst_lt_enumFrom l 0)

/-- C6: After `perform_search`: an empty query gives empty results and no
error; with `regex_mode` off, `search_results` is, in increasing index order,
exactly the indices of the current page's text elements whose lowercased text
contains the lowercased query; with `regex_mode` on and a compiling query,
exactly the indices of elements the regex matches; with a failing compile,
results are empty and `search_error` describes the error. -/
theorem perform_search_spec (eng : RegexEngine) (s : AppState) :
    (s.search_query = [] →
      (perform_search eng s).search_results = [] ∧
        (perform_search eng s).search_error = none) ∧
      (s.search_query ≠ [] → s.regex_mode = false →
        List.Pairwise (· < ·) (perform_search eng s).search_results ∧
          (perform_search eng s).search_error = none ∧
          ∀ i, i ∈ (perform_search eng s).search_results ↔
            ∃ te, (currentTextElements s)[i]? = some te ∧
              containsStr (strLower te.text) (strLower s.search_query) = true) ∧
      (∀ re, s.search_query ≠ [] → s.regex_mode = true →
        eng.compile s.search_query = .ok re →
        List.Pairwise (· < ·) (perform_search eng s).search_results ∧
          (perform_search eng s).search_error = none ∧
          ∀ i, i ∈ (perform_search eng s).search_results ↔
            ∃ te, (currentTextElements s)[i]? = some te ∧
              eng.isMatch re te.text = true) ∧
      (∀ e, s.search_query ≠ [] → s.regex_mode = true →
        eng.compile s.search_query = .error e →
        (perform_search eng s).search_results = [] ∧
          (perform_search eng s).search_error = some ("Regex error: ".data ++ e)) := by
  refine ⟨?_, ?_, ?_, ?_⟩
  · intro hq
    simp [perform_search, hq]
  · intro hq hr
    have hps : perform_search eng s =
        { s with search_error := none, search_results :=
            ((currentTextElements s).enum.filter
              (fun p => containsStr (strLower p.2.text)
                (strLower s.search_query))).map Prod.fst } := by
      simp only [perform_search, hq, if_false, hr]
      rfl
    rw [hps]
    refine ⟨pairwise_enum_filter_map _ _, rfl, ?_⟩
    intro i
    exact mem_enum_filter_map
  · intro re hq hr hc
    have hps : perform_search eng s =
        { s with search_error := none, search_results :=
            ((currentTextElements s).enum.filter
              (fun p => eng.isMatch re p.2.text)).map Prod.fst } := by
      simp only [perform_search, hq, if_false, hr, hc]
      rfl
    rw [hps]
    refine ⟨pairwise_enum_filter_map _ _, rfl, ?_⟩
    intro i
    exact mem_enum_filter_map
  · intro e hq hr hc
    have hps : perform_search eng s =
        { s with
          search_results := []
          search_error := some ("Regex error: ".data ++ e) } := by
      simp only [perform_search, hq, if_false, hr, hc]
      rfl
    rw [hps]
    exact ⟨rfl, rfl⟩

/-- Witness for C6: searching `"a"` (no regex) in the page `["bar"]` returns
index 0. -/
theorem perform_search_spec_witness :
    0 ∈ (perform_search trivEngine c6WitnessState).search_results :=
  (((perform_search_spec trivEngine c6WitnessState).2.1 (by decide) rfl).2.2 0).mpr
    ⟨⟨⟨0, 0⟩, ['b', 'a', 'r'], 20⟩, rfl, by decide⟩

/-- C4: `check_arrow_collision_at_position` returns `true` iff the
axis-aligned square of side `arrow_length + 4` centered at
`(arrow_x, arrow_y)` intersects the estimated rectangle of at least one
non-blank line of at least one text element whose index is not in
`search_results` (line `i` of an element at `p` with font size `f` occupying
the rectangle with origin `(p.x, p.y + i * 1.2 * f)` and size
`(line.len() * 0.6 * f, f)`, see `lineRect`). -/
theorem check_arrow_collision_iff (s : AppState) (ax ay L : ℚ) :
    check_arrow_collision_at_position s ax ay L = true ↔
      ∃ i te, (currentTextElements s)[i]? = some te ∧ i ∉ s.search_results ∧
        ∃ li line, (rustLines te.text)[li]? = some line ∧ isBlank line = false ∧
          (Rect.fromCenterSize ax ay (L + 4) (L + 4)).intersects
            (lineRect te li line) = true := by
  have harea : (L + 2 * 2 : ℚ) = L + 4 := by norm_num
  unfold check_arrow_collision_at_position
  rw [harea]
  rw [List.any_eq_true]
  constructor
  · rintro ⟨⟨i, te⟩, hmem, hb⟩
    rw [Bool.and_eq_true] at hb
    rcases hb with ⟨hnotres, hinner⟩
    rw [Bool.not_eq_true'] at hnotres
    rw [List.any_eq_true] at hinner
    rcases hinner with ⟨⟨li, line⟩, hline, hb2⟩
    rw [Bool.and_eq_true] at hb2
    rcases hb2 with ⟨hb2a, hb2b⟩
    rw [Bool.not_eq_true'] at hb2a
    refine ⟨i, te, List.mem_enum_iff_getElem?.mp hmem, ?_, li, line,
      List.mem_enum_iff_getElem?.mp hline, hb2a, hb2b⟩
    intro hmem2
    have : s.search_results.contains i = true := List.elem_iff.mpr hmem2
    rw [this] at hnotres
    simp at hnotres
  · rintro ⟨i, te, hget, hnotres, li, line, hline, hblank, hint⟩
    refine ⟨(i, te), List.mem_enum_iff_getElem?.mpr hget, ?_⟩
    rw [Bool.and_eq_true]
    constructor
    · rw [Bool.not_eq_true']
      cases hc : s.search_results.contains i with
      | false => rfl
      | true => exact absurd (List.elem_iff.mp hc) hnotres
    · rw [List.any_eq_true]
      refine ⟨(li, line), List.mem_enum_iff_getElem?.mpr hline, ?_⟩
      rw [Bool.and_eq_true, Bool.not_eq_true']
      exact ⟨hblank, hint⟩

/-- `find?` returns the element at the first index satisfying the test. -/
theorem find?_of_first (l : List α) (p : α → Bool) (i : ℕ) (c : α)
    (hc : l[i]? = some c) (hpc : p c = true)
    (hmin : ∀ j c', j < i → l[j]? = some c' → p c' = false) :
    l.find? p = some c := by
  induction l generalizing i with
  | nil => simp at hc
  | cons a t ih =>
    cases i with
    | zero =>
      simp only [List.getElem?_cons_zero, Option.some.injEq] at hc
      subst hc
      simp [List.find?_cons, hpc]
    | succ n =>
      have ha : p a = false := hmin 0 a (Nat.succ_pos n) (by simp)
      simp only [List.getElem?_cons_succ] at hc
      rw [List.find?_cons, ha]
      exact ih n hc (fun j c' hj hg => hmin (j + 1) c' (by omega) (by simpa using hg))

/-- C3: `draw_pointing_arrows` draws the pointer arrow at the first of
the four candidate positions — bottom, top, left, right, in that order — at
which `check_arrow_collision_at_position` reports no collision (so the drawn
arrow's collision square overlaps no other text element's estimated bounds
whenever at least one candidate is collision-free); only when all four
candidates collide does it fall back to the default bottom position. -/
theorem draw_pointing_arrows_spec (s : AppState) (cx tb mw : ℚ) :
    (∀ (i : ℕ) (c : ArrowDir × ℚ × ℚ), (arrowCandidates cx tb mw)[i]? = some c →
      check_arrow_collision_at_position s c.2.1 c.2.2 15 = false →
      (∀ (j : ℕ) (c' : ArrowDir × ℚ × ℚ), j < i → (arrowCandidates cx tb mw)[j]? = some c' →
        check_arrow_collision_at_position s c'.2.1 c'.2.2 15 = true) →
      draw_pointing_arrows s cx tb mw = [(c.1, c.2.1, c.2.2, 15)] ∧
        check_arrow_collision_at_position s c.2.1 c.2.2 15 = false) ∧
      ((∀ c ∈ arrowCandidates cx tb mw,
          check_arrow_collision_at_position s c.2.1 c.2.2 15 = true) →
        draw_pointing_arrows s cx tb mw =
          (ArrowDir.bottom, cx, tb + 5, 15) ::
            (if 30 < mw then
              [(ArrowDir.bottom, cx - mw / 3, tb + 5, 15 * (0.7 : ℚ)),
               (ArrowDir.bottom, cx + mw / 3, tb + 5, 15 * (0.7 : ℚ))]
            else [])) := by
  constructor
  · intro i c hc hfree hmin
    have hfind : (arrowCandidates cx tb mw).find?
        (fun c => !check_arrow_collision_at_position s c.2.1 c.2.2 15) = some c := by
      apply find?_of_first _ _ i c hc
      · rw [Bool.not_eq_true']
        exact hfree
      · intro j c' hj hg
        simp [hmin j c' hj hg]
    rw [draw_pointing_arrows, hfind]
    exact ⟨rfl, hfree⟩
  · intro hall
    have hfind : (arrowCandidates cx tb mw).find?
        (fun c => !check_arrow_collision_at_position s c.2.1 c.2.2 15) = none := by
      rw [List.find?_eq_none]
      intro c hc
      simp [hall c hc]
    rw [draw_pointing_arrows, hfind]

/-- Witness for C3: with no other text elements nothing collides, so the
first (bottom) candidate is chosen. -/
theorem draw_pointing_arrows_spec_witness :
    draw_pointing_arrows defaultState 100 50 10 = [(ArrowDir.bottom, 100, 50 + 5, 15)] ∧
      check_arrow_collision_at_position defaultState 100 (50 + 5) 15 = false :=
  (draw_pointing_arrows_spec defaultState 100 50 10).1 0 (.bottom, 100, 50 + 5) rfl rfl
    (fun j _ hj _ => absurd hj (Nat.not_lt_zero j))

/-- The two bounds loops, written as one fold over the list of corner
contributions. -/
theorem strokeBounds_eq (strokes : List Stroke) (b0 : Option (ℚ × ℚ × ℚ × ℚ)) :
    strokeBounds b0 strokes =
      ((((strokes.map (fun st => st.points.map (fun q => (q.x, q.y)))).flatten).map
          (fun q => (q, q))).foldl (fun b pr => updBounds b pr.1 pr.2) b0) := by
  induction strokes generalizing b0 with
  | nil => rfl
  | cons st rest ih =>
    simp only [strokeBounds, List.foldl_cons, List.map_cons, List.flatten_cons,
      List.map_append, List.foldl_append, List.foldl_map] at *
    rw [ih]

theorem textBounds_eq (tes : List TextElement) (b0 : Option (ℚ × ℚ × ℚ × ℚ)) :
    textBounds b0 tes =
      ((tes.map textLineCorners).flatten).foldl (fun b pr => updBounds b pr.1 pr.2) b0 := by
  induction tes generalizing b0 with
  | nil => rfl
  | cons te rest ih =>
    simp only [textBounds, List.foldl_cons, List.map_cons, List.flatten_cons,
      List.foldl_append] at *
    rw [ih]

/-- `calculate_content_bounds`'s accumulator is the fold of `updBounds` over
all corner contributions of the page. -/
theorem pageBoundsAcc_eq (p : Page) :
    pageBoundsAcc p =
      (contentCorners p).foldl (fun b pr => updBounds b pr.1 pr.2) none := by
  unfold pageBoundsAcc contentCorners strokePoints
  rw [textBounds_eq, strokeBounds_eq, List.foldl_append]

/-- The fold of `updBounds` from a known accumulator, componentwise. -/
theorem updFold_some_eq (l : List ((ℚ × ℚ) × (ℚ × ℚ))) (a b c d : ℚ) :
    l.foldl (fun b pr => updBounds b pr.1 pr.2) (some (a, b, c, d)) =
      some (l.foldl (fun m pr => min m pr.1.1) a,
            l.foldl (fun m pr => min m pr.1.2) b,
            l.foldl (fun m pr => max m pr.2.1) c,
            l.foldl (fun m pr => max m pr.2.2) d) := by
  induction l generalizing a b c d with
  | nil => rfl
  | cons pr rest ih =>
    simp only [List.foldl_cons]
    rw [show updBounds (some (a, b, c, d)) pr.1 pr.2 =
        some (min a pr.1.1, min b pr.1.2, max c pr.2.1, max d pr.2.2) from rfl, ih]

/-- A `min`-fold is a lower bound of its start and of every element. -/
theorem foldl_min_le (l : List α) (f : α → ℚ) (a : ℚ) :
    l.foldl (fun m x => min m (f x)) a ≤ a ∧
      ∀ x ∈ l, l.foldl (fun m x => min m (f x)) a ≤ f x := by
  induction l generalizing a with
  | nil => simp
  | cons y rest ih =>
    simp only [List.foldl_cons]
    rcases ih (min a (f y)) with ⟨h1, h2⟩
    refine ⟨le_trans h1 (min_le_left _ _), ?_⟩
    intro x hx
    rcases List.mem_cons.mp hx with h | h
    · subst h
      exact le_trans h1 (min_le_right _ _)
    · exact h2 x h

/-- A `min`-fold is attained: it is the start or one of the elements. -/
theorem foldl_min_attained (l : List α) (f : α → ℚ) (a : ℚ) :
    l.foldl (fun m x => min m (f x)) a = a ∨
      ∃ x ∈ l, f x = l.foldl (fun m x => min m (f x)) a := by
  induction l generalizing a with
  | nil => left; rfl
  | cons y rest ih =>
    simp only [List.foldl_cons]
    rcases ih (min a (f y)) with h | ⟨x, hx, hfx⟩
    · rw [h]
      rcases min_cases a (f y) with ⟨h1, -⟩ | ⟨h1, -⟩
      · left; exact h1
      · right; exact ⟨y, List.mem_cons_self y rest, h1.symm⟩
    · right
      exact ⟨x, List.mem_cons_of_mem y hx, hfx⟩

/-- A `max`-fold is an upper bound of its start and of every element. -/
theorem foldl_max_ge (l : List α) (f : α → ℚ) (a : ℚ) :
    a ≤ l.foldl (fun m x => max m (f x)) a ∧
      ∀ x ∈ l, f x ≤ l.foldl (fun m x => max m (f x)) a := by
  induction l generalizing a with
  | nil => simp
  | cons y rest ih =>
    simp only [List.foldl_cons]
    rcases ih (max a (f y)) with ⟨h1, h2⟩
    refine ⟨le_trans (le_max_left _ _) h1, ?_⟩
    intro x hx
    rcases List.mem_cons.mp hx with h | h
    · subst h
      exact le_trans (le_max_right _ _) h1
    · exact h2 x h

/-- A `max`-fold is attained: it is the start or one of the elements. -/
theorem foldl_max_attained (l : List α) (f : α → ℚ) (a : ℚ) :
    l.foldl (fun m x => max m (f x)) a = a ∨
      ∃ x ∈ l, f x = l.foldl (fun m x => max m (f x)) a := by
  induction l generalizing a with
  | nil => left; rfl
  | cons y rest ih =>
    simp only [List.foldl_cons]
    rcases ih (max a (f y)) with h | ⟨x, hx, hfx⟩
    · rw [h]
      rcases max_cases a (f y) with ⟨h1, -⟩ | ⟨h1, -⟩
      · left; exact h1
      · right; exact ⟨y, List.mem_cons_self y rest, h1.symm⟩
    · right
      exact ⟨x, List.mem_cons_of_mem y hx, hfx⟩

/-- Evaluation of `calculate_content_bounds` once the accumulator is known. -/
theorem calculate_content_bounds_of_some (s : AppState) (a b c d : ℚ)
    (h : pageBoundsAcc (currentPage s) = some (a, b, c, d)) :
    calculate_content_bounds s =
      (a - 20, b - 20, max ((c + 20) - (a - 20)) 400,
        max ((d + 20) - (b - 20)) 300) := by
  unfold calculate_content_bounds
  rw [h]

/-- A text element contributes no corners exactly when all its lines are
blank. -/
theorem textLineCorners_eq_nil (te : TextElement) :
    textLineCorners te = [] ↔ ∀ line ∈ rustLines te.text, isBlank line = true := by
  unfold textLineCorners
  rw [List.map_eq_nil_iff, List.filter_eq_nil_iff]
  constructor
  · intro h line hline
    obtain ⟨i, hi⟩ := List.mem_iff_getElem?.mp hline
    have := h (i, line) (List.mem_enum_iff_getElem?.mpr hi)
    simpa using this
  · intro h q hq
    have hq2 : q.2 ∈ rustLines te.text :=
      List.mem_iff_getElem?.mpr ⟨q.1, List.mem_enum_iff_getElem?.mp hq⟩
    simp [h q.2 hq2]

/-- C8 (amended): `calculate_content_bounds` returns the default
`(0, 0, 800, 600)` when the current page has no stroke point and no non-blank
text line; otherwise it returns
`(min_x - 20, min_y - 20, max(content_width + 40, 400),
max(content_height + 40, 300))` where the minima and maxima range over all
stroke points and the corners of the estimated rectangles of all non-blank
text lines, and the returned rectangle contains every stroke point and every
estimated-rectangle corner.  (Amendment: "exactly when" fails in the
counterexample direction — the formula can also produce the default tuple for
a non-empty page; see the counterexample.) -/
theorem calculate_content_bounds_spec (s : AppState) :
    (contentCorners (currentPage s) = [] ↔
      strokePoints (currentPage s) = [] ∧
        ∀ te ∈ (currentPage s).text_elements, ∀ line ∈ rustLines te.text,
          isBlank line = true) ∧
      (contentCorners (currentPage s) = [] →
        calculate_content_bounds s = (0, 0, 800, 600)) ∧
      (contentCorners (currentPage s) ≠ [] →
        ∃ a b c d, pageBoundsAcc (currentPage s) = some (a, b, c, d) ∧
          (∀ pr ∈ contentCorners (currentPage s),
            a ≤ pr.1.1 ∧ b ≤ pr.1.2 ∧ pr.2.1 ≤ c ∧ pr.2.2 ≤ d) ∧
          (∃ pr ∈ contentCorners (currentPage s), pr.1.1 = a) ∧
          (∃ pr ∈ contentCorners (currentPage s), pr.1.2 = b) ∧
          (∃ pr ∈ contentCorners (currentPage s), pr.2.1 = c) ∧
          (∃ pr ∈ contentCorners (currentPage s), pr.2.2 = d) ∧
          calculate_content_bounds s =
            (a - 20, b - 20, max ((c - a) + 40) 400, max ((d - b) + 40) 300) ∧
          (∀ pr ∈ contentCorners (currentPage s),
            (calculate_content_bounds s).1 ≤ pr.1.1 ∧
              pr.2.1 ≤ (calculate_content_bounds s).1 +
                (calculate_content_bounds s).2.2.1 ∧
              (calculate_content_bounds s).2.1 ≤ pr.1.2 ∧
              pr.2.2 ≤ (calculate_content_bounds s).2.1 +
                (calculate_content_bounds s).2.2.2)) := by
  refine ⟨?_, ?_, ?_⟩
  · unfold contentCorners
    rw [List.append_eq_nil, List.map_eq_nil_iff, List.flatten_eq_nil_iff]
    constructor
    · rintro ⟨h1, h2⟩
      refine ⟨h1, fun te hte => (textLineCorners_eq_nil te).mp ?_⟩
      exact h2 _ (List.mem_map_of_mem textLineCorners hte)
    · rintro ⟨h1, h2⟩
      refine ⟨h1, fun l hl => ?_⟩
      obtain ⟨te, hte, rfl⟩ := List.mem_map.mp hl
      exact (textLineCorners_eq_nil te).mpr (h2 te hte)
  · intro h
    unfold calculate_content_bounds
    rw [pageBoundsAcc_eq, h]
    rfl
  · intro hne
    rcases hl : contentCorners (currentPage s) with _ | ⟨pr, rest⟩
    · exact absurd hl hne
    have hfold : pageBoundsAcc (currentPage s) =
        some (rest.foldl (fun m pr => min m pr.1.1) pr.1.1,
              rest.foldl (fun m pr => min m pr.1.2) pr.1.2,
              rest.foldl (fun m pr => max m pr.2.1) pr.2.1,
              rest.foldl (fun m pr => max m pr.2.2) pr.2.2) := by
      rw [pageBoundsAcc_eq, hl]
      simp only [List.foldl_cons]
      rw [show updBounds none pr.1 pr.2 =
          some (pr.1.1, pr.1.2, pr.2.1, pr.2.2) from rfl, updFold_some_eq]
    have hcalc := calculate_content_bounds_of_some s _ _ _ _ hfold
    refine ⟨_, _, _, _, hfold, ?_, ?_, ?_, ?_, ?_, ?_, ?_⟩
    · intro pr' hpr'
      rcases List.mem_cons.mp hpr' with h | h
      · subst h
        exact ⟨(foldl_min_le rest _ _).1, (foldl_min_le rest _ _).1,
          (foldl_max_ge rest _ _).1, (foldl_max_ge rest _ _).1⟩
      · exact ⟨(foldl_min_le rest (fun pr => pr.1.1) _).2 pr' h,
          (foldl_min_le rest (fun pr => pr.1.2) _).2 pr' h,
          (foldl_max_ge rest (fun pr => pr.2.1) _).2 pr' h,
          (foldl_max_ge rest (fun pr => pr.2.2) _).2 pr' h⟩
    · rcases foldl_min_attained rest (fun pr => pr.1.1) pr.1.1 with h | ⟨x, hx, hfx⟩
      · exact ⟨pr, List.mem_cons_self pr rest, h.symm⟩
      · exact ⟨x, List.mem_cons_of_mem pr hx, hfx⟩
    · rcases foldl_min_attained rest (fun pr => pr.1.2) pr.1.2 with h | ⟨x, hx, hfx⟩
      · exact ⟨pr, List.mem_cons_self pr rest, h.symm⟩
      · exact ⟨x, List.mem_cons_of_mem pr hx, hfx⟩
    · rcases foldl_max_attained rest (fun pr => pr.2.1) pr.2.1 with h | ⟨x, hx, hfx⟩
      · exact ⟨pr, List.mem_cons_self pr rest, h.symm⟩
      · exact ⟨x, List.mem_cons_of_mem pr hx, hfx⟩
    · rcases foldl_max_attained rest (fun pr => pr.2.2) pr.2.2 with h | ⟨x, hx, hfx⟩
      · exact ⟨pr, List.mem_cons_self pr rest, h.symm⟩
      · exact ⟨x, List.mem_cons_of_mem pr hx, hfx⟩
    · rw [hcalc]
      have e1 : (rest.foldl (fun m pr => max m pr.2.1) pr.2.1 + 20) -
          (rest.foldl (fun m pr => min m pr.1.1) pr.1.1 - 20) =
          (rest.foldl (fun m pr => max m pr.2.1) pr.2.1 -
            rest.foldl (fun m pr => min m pr.1.1) pr.1.1) + 40 := by ring
      have e2 : (rest.foldl (fun m pr => max m pr.2.2) pr.2.2 + 20) -
          (rest.foldl (fun m pr => min m pr.1.2) pr.1.2 - 20) =
          (rest.foldl (fun m pr => max m pr.2.2) pr.2.2 -
            rest.foldl (fun m pr => min m pr.1.2) pr.1.2) + 40 := by ring
      rw [e1, e2]
    · rw [hcalc]
      intro pr' hpr'
      have hmins := foldl_min_le rest (fun pr => pr.1.1) pr.1.1
      have hmins2 := foldl_min_le rest (fun pr => pr.1.2) pr.1.2
      have hmaxs := foldl_max_ge rest (fun pr => pr.2.1) pr.2.1
      have hmaxs2 := foldl_max_ge rest (fun pr => pr.2.2) pr.2.2
      have hA : rest.foldl (fun m pr => min m pr.1.1) pr.1.1 ≤ pr'.1.1 := by
        rcases List.mem_cons.mp hpr' with h | h
        · rw [h]
          exact hmins.1
        · exact hmins.2 pr' h
      have hB : rest.foldl (fun m pr => min m pr.1.2) pr.1.2 ≤ pr'.1.2 := by
        rcases List.mem_cons.mp hpr' with h | h
        · rw [h]
          exact hmins2.1
        · exact hmins2.2 pr' h
      have hC : pr'.2.1 ≤ rest.foldl (fun m pr => max m pr.2.1) pr.2.1 := by
        rcases List.mem_cons.mp hpr' with h | h
        · rw [h]
          exact hmaxs.1
        · exact hmaxs.2 pr' h
      have hD : pr'.2.2 ≤ rest.foldl (fun m pr => max m pr.2.2) pr.2.2 := by
        rcases List.mem_cons.mp hpr' with h | h
        · rw [h]
          exact hmaxs2.1
        · exact hmaxs2.2 pr' h
      set A := rest.foldl (fun m pr => min m pr.1.1) pr.1.1 with hAdef
      set B := rest.foldl (fun m pr => min m pr.1.2) pr.1.2 with hBdef
      set C := rest.foldl (fun m pr => max m pr.2.1) pr.2.1 with hCdef
      set D := rest.foldl (fun m pr => max m pr.2.2) pr.2.2 with hDdef
      have hmax1 : (C + 20) - (A - 20) ≤ max ((C + 20) - (A - 20)) 400 :=
        le_max_left _ _
      have hmax2 : (D + 20) - (B - 20) ≤ max ((D + 20) - (B - 20)) 300 :=
        le_max_left _ _
      dsimp only
      refine ⟨by linarith, by linarith, by linarith, by linarith⟩

/-- Witness for C8: the default page has no content, so the bounds are the
default canvas. -/
theorem calculate_content_bounds_spec_witness :
    calculate_content_bounds defaultState = (0, 0, 800, 600) :=
  (calculate_content_bounds_spec defaultState).2.1 rfl

/-- C8, counterexample: A page with stroke points `(20, 20)` and
`(780, 580)` — content present — whose computed bounds are nevertheless
exactly the default `(0, 0, 800, 600)`: "returns the default exactly when the
page is empty" fails in the only-if direction. -/
theorem content_bounds_counterexample :
    calculate_content_bounds c8State = (0, 0, 800, 600) ∧
      strokePoints (currentPage c8State) = [(20, 20), (780, 580)] := by
  constructor
  · have h1 : pageBoundsAcc (currentPage c8State) = some (20, 20, 780, 580) := by
      show textBounds (strokeBounds none _) _ = _
      simp only [c8State, defaultState, currentPage]
      norm_num [textBounds, strokeBounds, updBounds, List.foldl_cons, min_def, max_def]
    unfold calculate_content_bounds
    rw [h1]
    norm_num [min_def, max_def]
  · rfl

/-- C5, the code evaluated at a failing input: With the text element
`"İİ"` (two copies of U+0130, 2 UTF-8 bytes each) and the query `"i"` in
plain (non-regex) mode: lowercasing maps each `İ` to the two characters
`i` + U+0307 (3 bytes), so `get_match_positions` — which searches the
lowercased text but is applied to byte offsets of the original — reports a
match at byte range `(0, 1)`; `draw_arrows_for_matches` then slices
`&"İİ"[0..1]`, and byte 1 is not a character boundary of `"İİ"`, so the
slice panics.  The claim that the slicing always stays on character
boundaries (no failure mode beyond drawing in the wrong place) is false;
the `min`-clamp in the code shows staying in bounds was the intent. -/
theorem draw_arrows_slice_not_on_char_boundary :
    (perform_search trivEngine c5State).search_results = [0] ∧
      get_match_positions trivEngine c5State ['İ', 'İ'] = [(0, 1), (3, 4)] ∧
      sliceArgsFor (rustLines ['İ', 'İ']) (0, 1) = [(['İ', 'İ'], 0, 1)] ∧
      isCharBoundary ['İ', 'İ'] 1 = false ∧
      drawSlicesOk trivEngine c5State ['İ', 'İ'] = false := by
  refine ⟨?_, ?_, ?_, ?_, ?_⟩ <;> decide

/-- C10, counterexample: With `selected_text_elements = [0, 0]` (the same
index twice) and a drag from `(0, 0)` to `(1, 1)`, the element's position
moves by the offset twice — to `(2, 2)` instead of `(1, 1)` — so the claim as
stated is false for states whose selection list has duplicates. -/
theorem drag_selected_text_counterexample :
    c10State.selection_start = some ⟨0, 0⟩ ∧
      c10State.selected_text_elements = [0, 0] ∧
      (currentTextElements c10State)[0]? = some ⟨⟨0, 0⟩, ['a'], 20⟩ ∧
      (currentTextElements (drag_selected_text c10State ⟨1, 1⟩))[0]? =
        some ⟨⟨2, 2⟩, ['a'], 20⟩ ∧
      (⟨⟨2, 2⟩, ['a'], 20⟩ : TextElement) ≠ ⟨⟨1, 1⟩, ['a'], 20⟩ := by
  refine ⟨rfl, rfl, rfl, ?_, by decide⟩
  show (currentTextElements (drag_selected_text c10State ⟨1, 1⟩))[0]? = _
  simp only [drag_selected_text, c10State, defaultState, updateCurrentPage,
    currentTextElements, currentPage, listModify, dragMove, emptyPage,
    List.foldl_cons, List.foldl_nil]
  norm_num

end Scribble
